import Mathlib

/-!
Shallow embedding of the FIDE-tracker ingestion pipeline
(`src/scraper/seed_historical_data.py`, with the ranking-upsert call also
appearing in `src/scraper/upload_data.py`).

Lines of python text are modelled as `List Char` (the files are read with a
single-byte `latin-1` decoding, so characters coincide with bytes and python
slice offsets coincide with byte offsets).  Fallible conversions return
`Option`.  The external store (Supabase tables `players` and `rankings`) is
modelled as in-memory lists of rows, with the upsert conflict semantics the
code requests (`on_conflict='fide_id'` update for players,
`on_conflict='fide_id,scraped_date', ignore_duplicates=True` insert-if-absent
for rankings).
-/

namespace FideTracker

/-- Whitespace characters stripped by python's `str.strip()` (ASCII part). -/
def isPySpace (c : Char) : Bool :=
  c == ' ' || c == '\t' || c == '\n' || c == '\r' || c == '\x0b' || c == '\x0c'

/-- Python `s.strip()`: drop whitespace from both ends. -/
def pyStrip (l : List Char) : List Char :=
  ((l.dropWhile isPySpace).reverse.dropWhile isPySpace).reverse

/-- Python slice `l[a:b]` (for `a ≤ b` within our fixed-width uses). -/
def slice (l : List Char) (a b : Nat) : List Char :=
  (l.drop a).take (b - a)

/-- Digit run accepted by python `int()` after the optional sign: nonempty
digits with single underscores allowed between digits. -/
def digitsOK : List Char → Bool
  | [] => false
  | c :: rest => c.isDigit && digitsOKGo rest
where
  digitsOKGo : List Char → Bool
  | [] => true
  | ['_'] => false
  | '_' :: c :: rest => c.isDigit && digitsOKGo rest
  | c :: rest => c.isDigit && digitsOKGo rest

/-- Numeric value of a digit run (underscores removed). -/
def digitsVal (l : List Char) : Nat :=
  (l.filter (fun c => c != '_')).foldl (fun a c => 10 * a + (c.toNat - 48)) 0

/-- Python `int(s)` on a string: strips whitespace, optional sign, digits.
Returns `none` where python raises `ValueError`. -/
def pyInt? (l : List Char) : Option Int :=
  let s := pyStrip l
  match s with
  | '-' :: rest => if digitsOK rest then some (-(digitsVal rest : Int)) else none
  | '+' :: rest => if digitsOK rest then some (digitsVal rest : Int) else none
  | rest => if digitsOK rest then some (digitsVal rest : Int) else none

/-- Python `s.lower()` (ASCII part). -/
def pyLower (s : String) : String :=
  String.mk (s.toList.map Char.toLower)

/-- Lexicographic code-point comparison of character lists, python's
`<=` on strings. -/
def charListLe : List Char → List Char → Bool
  | [], _ => true
  | _ :: _, [] => false
  | a :: as, b :: bs =>
    if a < b then true else if b < a then false else charListLe as bs

/-- Python `a <= b` on strings (lexicographic by code point), the
comparison used by `sorted(..., key=lambda x: x[1])` on date strings. -/
def pyStrLe (a b : String) : Bool :=
  charListLe a.toList b.toList

/-- The player dict built by `parse_fide_text_file` (lines 104-113):
`title` and `rank` are always set to `None` for historical data. -/
structure RawRecord where
  fide_id : String
  name : String
  federation : String
  rating : Int
  birth_year : Option Int
  sex : String
  title : Option String
  rank : Option Int
deriving DecidableEq, Repr

/-- Outcome of the per-line body of the parse loop: a parse failure
(`skipped_invalid`), a drop by the admission filter (`skipped_low_rating`),
or a produced record. -/
inductive LineResult where
  | invalid
  | lowRating
  | record (p : RawRecord)
deriving DecidableEq, Repr

/-- The trimmed identifier field of a line, `line[0:15].strip()`. -/
def lineId (line : List Char) : String :=
  String.mk (pyStrip (slice line 0 15))

/-- Birth-year derivation (lines 95-102): only attempted when the trimmed
birth-date substring has at least 4 characters; `int` failure or a value
outside the `[1900, 2024]` sanity bound yields `none`. -/
def birthYearOf (birthday_str : List Char) : Option Int :=
  if birthday_str ≠ [] ∧ 4 ≤ birthday_str.length then
    match pyInt? (slice birthday_str 0 4) with
    | some y => if y < 1900 ∨ 2024 < y then none else some y
    | none => none
  else none

/-- One iteration of the parse loop of `parse_fide_text_file`
(lines 48-120): length check, fixed-offset field extraction, emptiness
checks, rating conversion, admission filter, birth-year derivation. -/
def parseLine (min_rating : Int) (existing_fide_ids : List String)
    (line : List Char) : LineResult :=
  if line.length < 123 then .invalid
  else
    let fide_id := lineId line
    let name := String.mk (pyStrip (slice line 15 76))
    let federation := String.mk (pyStrip (slice line 76 79))
    let sex := String.mk (pyStrip (slice line 79 80))
    let rating_str := pyStrip (slice line 113 117)
    let birthday_str := pyStrip (slice line 126 130)
    if fide_id = "" ∨ rating_str = [] ∨ name = "" then .invalid
    else
      match pyInt? rating_str with
      | none => .invalid
      | some rating =>
        if rating < min_rating ∧ fide_id ∉ existing_fide_ids then .lowRating
        else
          .record
            { fide_id := fide_id
              name := name
              federation := federation
              rating := rating
              birth_year := birthYearOf birthday_str
              sex := sex
              title := none
              rank := none }

/-- Accumulation of one line result into `(players, skipped_invalid,
skipped_low_rating)`. -/
def parseStep (min_rating : Int) (existing_fide_ids : List String)
    (acc : List RawRecord × Nat × Nat) (line : List Char) :
    List RawRecord × Nat × Nat :=
  match parseLine min_rating existing_fide_ids line with
  | .invalid => (acc.1, acc.2.1 + 1, acc.2.2)
  | .lowRating => (acc.1, acc.2.1, acc.2.2 + 1)
  | .record p => (acc.1 ++ [p], acc.2.1, acc.2.2)

/-- `parse_fide_text_file` (lines 19-127) on the decoded lines of the file:
skips the header line, drops blank lines, and folds the per-line parse,
returning the player records together with the `skipped_invalid` and
`skipped_low_rating` counters. -/
def parse_fide_text_file (lines : List (List Char)) (min_rating : Int)
    (existing_fide_ids : List String) : List RawRecord × Nat × Nat :=
  let data_lines := (lines.drop 1).filter (fun l => pyStrip l ≠ [])
  data_lines.foldl (parseStep min_rating existing_fide_ids) ([], 0, 0)

/-- A row of the `players` table: the columns written by the identity pass
(lines 162-169 and `upload_data.py` lines 33-40). -/
structure PlayerRow where
  fide_id : String
  name : String
  birth_year : Option Int
deriving DecidableEq, Repr

/-- A row of the `rankings` table (lines 185-196 and `upload_data.py`
lines 50-61). -/
structure RankingRow where
  fide_id : String
  rank : Option Int
  rating : Int
  federation : String
  scraped_date : String
  scraped_at : String
  data_source : String
deriving DecidableEq, Repr

/-- The external store: the two Supabase tables the pipeline writes. -/
structure Store where
  players : List PlayerRow
  rankings : List RankingRow
deriving DecidableEq, Repr

/-- `get_existing_fide_ids` (lines 14-16): the snapshot of identifiers
already present in the `players` table. -/
def get_existing_fide_ids (st : Store) : List String :=
  st.players.map (fun p => p.fide_id)

/-- Modelled from the spec: the store's `upsert` with
`on_conflict='fide_id'` in update mode (§4.3 identity pass) applied to one
row — on conflict, `name` and `birth_year` of every matching row are
overwritten; otherwise the row is appended.  The Supabase client that
implements this call is not part of the repository sources. -/
def upsertPlayerRow (s : List PlayerRow) (r : PlayerRow) : List PlayerRow :=
  if s.any (fun q => q.fide_id == r.fide_id) then
    s.map (fun q =>
      if q.fide_id == r.fide_id then
        { q with name := r.name, birth_year := r.birth_year }
      else q)
  else s ++ [r]

/-- One batch of the identity pass (lines 171-174): upsert each row of the
chunk in order. -/
def upsertPlayers (s : List PlayerRow) (rows : List PlayerRow) : List PlayerRow :=
  rows.foldl upsertPlayerRow s

/-- The `(fide_id, scraped_date)` conflict key of a ranking row. -/
def rKey (r : RankingRow) : String × String :=
  (r.fide_id, r.scraped_date)

/-- Modelled from the spec: the store's `upsert` with
`on_conflict='fide_id,scraped_date', ignore_duplicates=True` (§4.3
observation pass) applied to one row — insert-if-absent, the existing row
is left untouched on conflict.  The Supabase client that implements this
call is not part of the repository sources. -/
def insertRankingRow (s : List RankingRow) (r : RankingRow) : List RankingRow :=
  if s.any (fun q => q.fide_id == r.fide_id && q.scraped_date == r.scraped_date)
  then s
  else s ++ [r]

/-- One batch of the observation pass (lines 198-202): insert-if-absent
each row of the chunk in order. -/
def insertRankings (s : List RankingRow) (rows : List RankingRow) : List RankingRow :=
  rows.foldl insertRankingRow s

/-- The chunking of `for i in range(0, len(players), batch_size)` with
`batch = players[i:i + batch_size]` and `batch_size = 100`
(lines 157-161, 183-184). -/
def chunks100 {α : Type} (l : List α) : List (List α) :=
  (List.range ((l.length + 99) / 100)).map
    (fun k => (l.drop (100 * k)).take 100)

/-- Runs the per-chunk writes of one pass: each chunk consumes one index of
the failure oracle `fail`; a failing chunk write raises, aborting all
remaining chunks (already-written chunks are not rolled back).  Returns the
store, the next oracle index and whether the pass completed. -/
def runChunks {σ β : Type} (w : σ → List β → σ) (fail : Nat → Bool) :
    Nat → σ → List (List β) → σ × Nat × Bool
  | k, s, [] => (s, k, true)
  | k, s, c :: cs =>
    if fail k then (s, k, false)
    else runChunks w fail (k + 1) (w s c) cs

/-- The rows of the identity pass for a batch (lines 162-169): only
`fide_id`, `name` and `birth_year` are written. -/
def playerUpsertRows (ps : List RawRecord) : List PlayerRow :=
  ps.map (fun p => { fide_id := p.fide_id, name := p.name, birth_year := p.birth_year })

/-- The rows of the observation pass for a batch (lines 185-196):
`rank` is the record's rank (always null for historical data) and
`data_source` is stamped `historical`. -/
def rankingRows (scraped_date scraped_at : String) (ps : List RawRecord) :
    List RankingRow :=
  ps.map (fun p =>
    { fide_id := p.fide_id
      rank := p.rank
      rating := p.rating
      federation := p.federation
      scraped_date := scraped_date
      scraped_at := scraped_at
      data_source := "historical" })

/-- `seed_database` (lines 130-217): snapshot the existing identifiers,
parse the file, return without writing when no record was admitted
(lines 143-145), then run the identity pass and, only if it completed, the
observation pass, both in chunks of 100.  `fail` is the oracle of chunk
write failures (the store is external; a raised chunk leaves earlier chunks
in place), `k` its starting index.  `scraped_date` is the normalized
`data_date` and `scraped_at` the midnight timestamp
`datetime.strptime(data_date, '%Y-%m-%d').isoformat()` (lines 153-154). -/
def seed_database (fail : Nat → Bool) (k : Nat) (st : Store)
    (fileLines : List (List Char)) (data_date : String) (min_rating : Int) :
    Store × Nat × Bool :=
  let existing_fide_ids := get_existing_fide_ids st
  let players := (parse_fide_text_file fileLines min_rating existing_fide_ids).1
  if players = [] then (st, k, true)
  else
    let scraped_date := data_date
    let scraped_at := data_date ++ "T00:00:00"
    let pr := runChunks upsertPlayers fail k st.players
      (chunks100 (playerUpsertRows players))
    if pr.2.2 = true then
      let rr := runChunks insertRankings fail pr.2.1 st.rankings
        (chunks100 (rankingRows scraped_date scraped_at players))
      ({ players := pr.1, rankings := rr.1 }, rr.2.1, rr.2.2)
    else ({ st with players := pr.1 }, pr.2.1, false)

/-- The failure oracle of a run in which every chunk write succeeds. -/
def noFail : Nat → Bool := fun _ => false

/-- The loop body of `seed_multiple_files` (lines 228-239) over the
date-sorted file list: seed each file; on failure consult the `input()`
response (modelled as the caller-supplied oracle `resp`, indexed by prompt
number `j`): continue with the next file when the lowered response is
`"y"`, otherwise break.  Also returns the trace of `(filepath, data_date)`
pairs processed, in order. -/
def seedFilesGo (fail : Nat → Bool) (resp : Nat → String)
    (fsys : String → List (List Char)) (min_rating : Int) :
    Nat → Nat → Store → List (String × String) →
      Store × List (String × String)
  | _, _, st, [] => (st, [])
  | k, j, st, (filepath, data_date) :: rest =>
    match seed_database fail k st (fsys filepath) data_date min_rating with
    | (st', k', true) =>
      let r := seedFilesGo fail resp fsys min_rating k' j st' rest
      (r.1, (filepath, data_date) :: r.2)
    | (st', k', false) =>
      if pyLower (resp j) = "y" then
        let r := seedFilesGo fail resp fsys min_rating k' (j + 1) st' rest
        (r.1, (filepath, data_date) :: r.2)
      else (st', [(filepath, data_date)])

/-- `seed_multiple_files` (lines 220-239): sort the `(filepath, data_date)`
list ascending by date (`sorted(file_list, key=lambda x: x[1])`, a stable
sort, modelled by insertion sort on the date component) and process it in
that order.  `fsys` maps a filepath to the decoded lines of the file. -/
def seed_multiple_files (fail : Nat → Bool) (resp : Nat → String)
    (fsys : String → List (List Char)) (file_list : List (String × String))
    (min_rating : Int) (st : Store) : Store × List (String × String) :=
  seedFilesGo fail resp fsys min_rating 0 0 st
    (List.insertionSort (fun a b => pyStrLe a.2 b.2 = true) file_list)

/-! Concrete fixed-width test lines, built at the byte offsets of §4.1:
identifier at [0,15), name at [15,76), federation at [76,79), sex at
[79,80), titles and other unused fields at [80,113), rating at [113,117),
a gap at [117,126), birth date at [126,130). -/

/-- Pad a field to its fixed width with trailing spaces. -/
def padTo (n : Nat) (s : List Char) : List Char :=
  s ++ List.replicate (n - s.length) ' '

/-- Build a 130-character fixed-width line from its fields. -/
def mkLine (fid nm fed sx rat bir : String) : List Char :=
  padTo 15 fid.toList ++ padTo 61 nm.toList ++ padTo 3 fed.toList ++
    padTo 1 sx.toList ++ padTo 33 [] ++ padTo 4 rat.toList ++
    padTo 9 [] ++ padTo 4 bir.toList

/-- A store with both tables empty. -/
def emptyStore : Store := { players := [], rankings := [] }

/-! ### Lemmas about the parser -/

/-- A line shorter than 123 characters is invalid. -/
theorem parseLine_short {min_rating : Int} {ex : List String} {line : List Char}
    (h : line.length < 123) : parseLine min_rating ex line = .invalid := by
  unfold parseLine
  rw [if_pos h]

/-- Characterization of `parseLine` on a line that passes the validity
checks: the admission filter alone decides between `lowRating` and the
produced record. -/
theorem parseLine_valid (min_rating : Int) (ex : List String)
    (line : List Char) (r : Int)
    (hlen : ¬ line.length < 123)
    (hid : lineId line ≠ "")
    (hname : String.mk (pyStrip (slice line 15 76)) ≠ "")
    (hrs : pyStrip (slice line 113 117) ≠ [])
    (hr : pyInt? (pyStrip (slice line 113 117)) = some r) :
    parseLine min_rating ex line =
      if r < min_rating ∧ lineId line ∉ ex then .lowRating
      else .record
        { fide_id := lineId line
          name := String.mk (pyStrip (slice line 15 76))
          federation := String.mk (pyStrip (slice line 76 79))
          rating := r
          birth_year := birthYearOf (pyStrip (slice line 126 130))
          sex := String.mk (pyStrip (slice line 79 80))
          title := none
          rank := none } := by
  unfold parseLine
  rw [if_neg hlen, if_neg (by simp [hid, hname, hrs]), hr]

/-- The birth year recorded for any birth-date substring is either absent
or within the `[1900, 2024]` sanity bound. -/
theorem birthYearOf_range (bs : List Char) :
    birthYearOf bs = none ∨
      ∃ y, birthYearOf bs = some y ∧ 1900 ≤ y ∧ y ≤ 2024 := by
  unfold birthYearOf
  split
  · split
    · rename_i y _
      split
      · exact Or.inl rfl
      · rename_i hy
        exact Or.inr ⟨y, rfl, by omega, by omega⟩
    · exact Or.inl rfl
  · exact Or.inl rfl

/-- Any record produced by `parseLine` carries the birth year derived from
the line's birth-date substring. -/
theorem parseLine_record_birth_year {min_rating : Int} {ex : List String}
    {line : List Char} {p : RawRecord}
    (h : parseLine min_rating ex line = .record p) :
    p.birth_year = birthYearOf (pyStrip (slice line 126 130)) := by
  simp only [parseLine] at h
  split at h
  · exact absurd h (by simp)
  · split at h
    · exact absurd h (by simp)
    · split at h
      · exact absurd h (by simp)
      · split at h
        · exact absurd h (by simp)
        · cases h
          rfl

/-- If every line of a block parses as invalid, the fold adds exactly the
block's length to the `skipped_invalid` counter and produces no record. -/
theorem foldl_parseStep_invalid (min_rating : Int) (ex : List String) :
    ∀ (ds : List (List Char)) (acc : List RawRecord × Nat × Nat),
      (∀ l ∈ ds, parseLine min_rating ex l = .invalid) →
      ds.foldl (parseStep min_rating ex) acc
        = (acc.1, acc.2.1 + ds.length, acc.2.2) := by
  intro ds
  induction ds with
  | nil => intro acc _; simp
  | cons l ls ih =>
    intro acc h
    have hl : parseStep min_rating ex acc l = (acc.1, acc.2.1 + 1, acc.2.2) := by
      simp [parseStep, h l (by simp)]
    simp only [List.foldl_cons, hl]
    rw [ih _ (fun x hx => h x (by simp [hx]))]
    simp only [List.length_cons]
    have : acc.2.1 + 1 + ls.length = acc.2.1 + (ls.length + 1) := by omega
    rw [this]

/-! ### Claim theorems: parser and admission filter -/

/-- C1: a record that passes the validity checks is admitted (produced, at
its parsed rating and identifier) iff its rating reaches `min_rating` or
its identifier is in the existing-identities snapshot, and is dropped as
`skipped_low_rating` exactly otherwise. -/
theorem admission_filter_iff (min_rating : Int) (ex : List String)
    (line : List Char) (r : Int)
    (hlen : ¬ line.length < 123)
    (hid : lineId line ≠ "")
    (hname : String.mk (pyStrip (slice line 15 76)) ≠ "")
    (hrs : pyStrip (slice line 113 117) ≠ [])
    (hr : pyInt? (pyStrip (slice line 113 117)) = some r) :
    (parseLine min_rating ex line = .lowRating ↔
        (r < min_rating ∧ lineId line ∉ ex))
    ∧ ((∃ p, parseLine min_rating ex line = .record p ∧
          p.rating = r ∧ p.fide_id = lineId line) ↔
        (min_rating ≤ r ∨ lineId line ∈ ex)) := by
  rw [parseLine_valid min_rating ex line r hlen hid hname hrs hr]
  by_cases hc : r < min_rating ∧ lineId line ∉ ex
  · rw [if_pos hc]
    constructor
    · exact ⟨fun _ => hc, fun _ => rfl⟩
    · constructor
      · rintro ⟨p, hp, -, -⟩
        exact absurd hp (by simp)
      · rintro (h | h)
        · exact absurd h (by omega)
        · exact absurd h hc.2
  · rw [if_neg hc]
    constructor
    · constructor
      · intro h
        exact absurd h (by simp)
      · intro h
        exact absurd h hc
    · constructor
      · intro _
        rcases not_and_or.mp hc with h | h
        · exact Or.inl (by omega)
        · exact Or.inr (not_not.mp h)
      · intro _
        exact ⟨_, rfl, rfl, rfl⟩

set_option maxRecDepth 400000 in
/-- Witness for C1: with `min_rating = 2500`, the concrete record with
rating `2499` is dropped when its identifier is absent from the snapshot
and admitted when it is present. -/
theorem admission_filter_iff_witness :
    parseLine 2500 [] (mkLine "123" "Low, Guy" "USA" "M" "2499" "1990")
        = .lowRating
    ∧ ∃ p, parseLine 2500 ["123"]
          (mkLine "123" "Low, Guy" "USA" "M" "2499" "1990") = .record p
        ∧ p.rating = 2499
        ∧ p.fide_id = lineId (mkLine "123" "Low, Guy" "USA" "M" "2499" "1990") := by
  constructor
  · exact (admission_filter_iff 2500 []
      (mkLine "123" "Low, Guy" "USA" "M" "2499" "1990") 2499
      (by decide) (by decide) (by decide) (by decide) (by decide)).1.mpr
      (by decide)
  · exact (admission_filter_iff 2500 ["123"]
      (mkLine "123" "Low, Guy" "USA" "M" "2499" "1990") 2499
      (by decide) (by decide) (by decide) (by decide) (by decide)).2.mpr
      (Or.inr (by decide))

/-- C8: every record the parser outputs carries a `birth_year` that is
either absent or inside the `[1900, 2024]` sanity bound, derived from the
line's birth-date substring; and a line passing the validity and admission
checks always yields a record, whatever its birth-date substring holds. -/
theorem birth_year_sane :
    (∀ (min_rating : Int) (ex : List String) (line : List Char) (p : RawRecord),
      parseLine min_rating ex line = .record p →
      p.birth_year = birthYearOf (pyStrip (slice line 126 130)) ∧
        (p.birth_year = none ∨
          ∃ y, p.birth_year = some y ∧ 1900 ≤ y ∧ y ≤ 2024))
    ∧ (∀ (min_rating : Int) (ex : List String) (line : List Char) (r : Int),
      ¬ line.length < 123 → lineId line ≠ "" →
      String.mk (pyStrip (slice line 15 76)) ≠ "" →
      pyStrip (slice line 113 117) ≠ [] →
      pyInt? (pyStrip (slice line 113 117)) = some r →
      (min_rating ≤ r ∨ lineId line ∈ ex) →
      ∃ p, parseLine min_rating ex line = .record p) := by
  constructor
  · intro minR ex line p h
    have hb := parseLine_record_birth_year h
    exact ⟨hb, by rw [hb]; exact birthYearOf_range _⟩
  · intro minR ex line r h1 h2 h3 h4 h5 h6
    rw [parseLine_valid minR ex line r h1 h2 h3 h4 h5]
    rw [if_neg (by rcases h6 with h | h
                   · intro hc; omega
                   · intro hc; exact hc.2 h)]
    exact ⟨_, rfl⟩

set_option maxRecDepth 400000 in
/-- Witness for C8: a line whose birth-date substring `abcd` fails to
parse still yields a record. -/
theorem birth_year_sane_witness :
    ∃ p, parseLine 2500 []
      (mkLine "123" "Some, Player" "USA" "M" "2600" "abcd") = .record p :=
  birth_year_sane.2 2500 []
    (mkLine "123" "Some, Player" "USA" "M" "2600" "abcd") 2600
    (by decide) (by decide) (by decide) (by decide) (by decide)
    (Or.inl (by decide))

/-- C5 counterexample: the whitespace-only line `" "` is a non-header line
of byte length `1 < 123`, yet the parser drops it in the blank-line filter
without touching the `skipped_invalid` counter, which stays `0` instead of
being incremented to `1`. -/
theorem short_blank_line_not_counted :
    (([' '] : List Char).length < 123) ∧
    parse_fide_text_file [['h'], [' ']] 2500 [] = ([], 0, 0) := by decide

/-- C5 amended: for every non-header, non-blank line of byte length less
than 123 the parser yields no record and increments `skipped_invalid` by
one — blank lines are removed before the loop and counted nowhere. -/
theorem short_line_invalid (min_rating : Int) (ex : List String)
    (hdr : List Char) (ls : List (List Char))
    (h : ∀ l ∈ ls, l.length < 123) :
    parse_fide_text_file (hdr :: ls) min_rating ex
      = ([], (ls.filter (fun l => pyStrip l ≠ [])).length, 0) := by
  unfold parse_fide_text_file
  simp only [List.drop_succ_cons, List.drop_zero]
  rw [foldl_parseStep_invalid _ _ _ _
    (fun l hl => parseLine_short (h l (List.mem_of_mem_filter hl)))]
  simp

set_option maxRecDepth 100000 in
/-- Witness for C5 (amended): a file with one short non-blank line parses
to no record and `skipped_invalid = 1`. -/
theorem short_line_invalid_witness :
    parse_fide_text_file [['h'], ['a', 'b', 'c']] 2500 [] = ([], 1, 0) :=
  (short_line_invalid 2500 [] ['h'] [['a', 'b', 'c']]
    (by decide)).trans (by decide)

/-- When no record is admitted, the run is the identity on the store. -/
theorem seed_database_no_records (fail : Nat → Bool) (k : Nat) (st : Store)
    (fileLines : List (List Char)) (data_date : String) (min_rating : Int)
    (h : (parse_fide_text_file fileLines min_rating
        (get_existing_fide_ids st)).1 = []) :
    seed_database fail k st fileLines data_date min_rating = (st, k, true) := by
  simp only [seed_database]
  rw [if_pos h]

/-- C10: when parsing plus admission yields no record, `seed_database`
returns before either pass issues a write, leaving the store unchanged. -/
theorem empty_parse_no_writes (fail : Nat → Bool) (k : Nat) (st : Store)
    (fileLines : List (List Char)) (data_date : String) (min_rating : Int)
    (h : (parse_fide_text_file fileLines min_rating
        (get_existing_fide_ids st)).1 = []) :
    seed_database fail k st fileLines data_date min_rating = (st, k, true) :=
  seed_database_no_records fail k st fileLines data_date min_rating h

/-- Witness for C10: a header-only file leaves the empty store unchanged. -/
theorem empty_parse_no_writes_witness :
    seed_database noFail 0 emptyStore [['h']] "2024-10-01" 2500
      = (emptyStore, 0, true) :=
  empty_parse_no_writes noFail 0 emptyStore [['h']] "2024-10-01" 2500
    (by decide)

/-! ### Lemmas about the observation store -/

/-- Inserting a ranking row whose key is already present is a no-op. -/
theorem insertRankingRow_present {s : List RankingRow} {r : RankingRow}
    (h : rKey r ∈ s.map rKey) : insertRankingRow s r = s := by
  unfold insertRankingRow
  rw [if_pos ?_]
  obtain ⟨q, hq, hkey⟩ := List.mem_map.mp h
  have h1 : q.fide_id = r.fide_id := congrArg Prod.fst hkey
  have h2 : q.scraped_date = r.scraped_date := congrArg Prod.snd hkey
  exact List.any_eq_true.mpr ⟨q, hq, by simp [h1, h2]⟩

/-- Inserting a ranking row whose key is absent appends it. -/
theorem insertRankingRow_absent {s : List RankingRow} {r : RankingRow}
    (h : rKey r ∉ s.map rKey) : insertRankingRow s r = s ++ [r] := by
  unfold insertRankingRow
  rw [if_neg ?_]
  intro hc
  obtain ⟨q, hq, hkey⟩ := List.any_eq_true.mp hc
  rw [Bool.and_eq_true, beq_iff_eq, beq_iff_eq] at hkey
  exact h (List.mem_map.mpr ⟨q, hq, by simp [rKey, hkey.1, hkey.2]⟩)

/-- Each ranking row's key is present after an insert-if-absent batch, and
keys already present stay present. -/
theorem insertRankings_key_mem {s : List RankingRow} {rows : List RankingRow}
    {k : String × String} (h : k ∈ s.map rKey ∨ k ∈ rows.map rKey) :
    k ∈ (insertRankings s rows).map rKey := by
  induction rows generalizing s with
  | nil => simpa [insertRankings] using h.resolve_right (by simp)
  | cons r rs ih =>
    have hstep : k ∈ (insertRankingRow s r).map rKey ∨ k ∈ rs.map rKey := by
      rcases h with h | h
      · left
        unfold insertRankingRow
        split
        · exact h
        · simp [h]
      · rcases List.mem_map.mp h with ⟨q, hq, hkey⟩
        rcases List.mem_cons.mp hq with rfl | hq'
        · left
          unfold insertRankingRow
          split
          · rename_i hany
            obtain ⟨w, hw, hwkey⟩ := List.any_eq_true.mp hany
            rw [Bool.and_eq_true, beq_iff_eq, beq_iff_eq] at hwkey
            exact List.mem_map.mpr ⟨w, hw, by simp [rKey, hwkey.1, hwkey.2, ← hkey]⟩
          · exact List.mem_map.mpr ⟨q, by simp, hkey⟩
        · exact Or.inr (List.mem_map.mpr ⟨q, hq', hkey⟩)
    exact ih hstep

/-! ### Claim theorem: observation key uniqueness -/

/-- C3: `(fide_id, scraped_date)` keys stay unique under every
insert-if-absent batch; a write for an already-present key is a no-op; and
writing two rows with the same key stores exactly the first row. -/
theorem ranking_key_unique_first_writer_wins :
    (∀ (s rows : List RankingRow),
      (s.map rKey).Nodup → ((insertRankings s rows).map rKey).Nodup)
    ∧ (∀ (s : List RankingRow) (r : RankingRow),
      rKey r ∈ s.map rKey → insertRankingRow s r = s)
    ∧ (∀ (s : List RankingRow) (r1 r2 : RankingRow),
      rKey r2 = rKey r1 → rKey r1 ∉ s.map rKey →
      insertRankings s [r1, r2] = s ++ [r1]) := by
  refine ⟨?_, fun s r h => insertRankingRow_present h, ?_⟩
  · intro s rows
    induction rows generalizing s with
    | nil => intro h; simpa [insertRankings] using h
    | cons r rs ih =>
      intro h
      have hstep : ((insertRankingRow s r).map rKey).Nodup := by
        by_cases hmem : rKey r ∈ s.map rKey
        · rw [insertRankingRow_present hmem]; exact h
        · rw [insertRankingRow_absent hmem]
          simp only [List.map_append, List.map_cons, List.map_nil]
          refine List.Nodup.append h (List.nodup_singleton _) ?_
          intro a ha hb
          rw [List.mem_singleton] at hb
          exact hmem (hb ▸ ha)
      rw [show insertRankings s (r :: rs)
            = insertRankings (insertRankingRow s r) rs from rfl]
      exact ih _ hstep
  · intro s r1 r2 hkeys habs
    show insertRankingRow (insertRankingRow s r1) r2 = s ++ [r1]
    rw [insertRankingRow_absent habs]
    exact insertRankingRow_present (by simp [hkeys])

/-- Witness for C3: two concrete rows with the same key, differing in
rating, inserted into the empty table leave exactly the first row. -/
theorem ranking_key_unique_first_writer_wins_witness :
    insertRankings []
      [{ fide_id := "1", rank := none, rating := 2600, federation := "NOR",
         scraped_date := "2024-10-01", scraped_at := "t1",
         data_source := "historical" },
       { fide_id := "1", rank := none, rating := 2700, federation := "NOR",
         scraped_date := "2024-10-01", scraped_at := "t2",
         data_source := "historical" }]
      = [{ fide_id := "1", rank := none, rating := 2600, federation := "NOR",
           scraped_date := "2024-10-01", scraped_at := "t1",
           data_source := "historical" }] :=
  (ranking_key_unique_first_writer_wins.2.2 _ _ _ (by decide) (by decide)).trans
    (by decide)

/-! ### Lemmas about the orchestrator -/

/-- The code-point comparison is total. -/
theorem charListLe_total : ∀ a b : List Char,
    charListLe a b = true ∨ charListLe b a = true := by
  intro a
  induction a with
  | nil => intro b; exact Or.inl rfl
  | cons x as ih =>
    intro b
    cases b with
    | nil => exact Or.inr rfl
    | cons y bs =>
      simp only [charListLe]
      rcases lt_trichotomy x y with h | h | h
      · exact Or.inl (by rw [if_pos h])
      · subst h
        rcases ih bs with h' | h'
        · left; rw [if_neg (lt_irrefl x), if_neg (lt_irrefl x)]; exact h'
        · right; rw [if_neg (lt_irrefl x), if_neg (lt_irrefl x)]; exact h'
      · exact Or.inr (by rw [if_pos h])

/-- The code-point comparison is transitive. -/
theorem charListLe_trans : ∀ a b c : List Char,
    charListLe a b = true → charListLe b c = true → charListLe a c = true := by
  intro a
  induction a with
  | nil => intro b c _ _; rfl
  | cons x as ih =>
    intro b c hab hbc
    cases b with
    | nil => simp [charListLe] at hab
    | cons y bs =>
      cases c with
      | nil => simp [charListLe] at hbc
      | cons z cs =>
        simp only [charListLe] at hab hbc ⊢
        by_cases hxy : x < y
        · by_cases hyz : y < z
          · rw [if_pos (lt_trans hxy hyz)]
          · by_cases hzy : z < y
            · rw [if_neg hyz, if_pos hzy] at hbc; exact absurd hbc (by simp)
            · have hyz' : y = z := le_antisymm (not_lt.mp hzy) (not_lt.mp hyz)
              rw [if_pos (hyz' ▸ hxy)]
        · by_cases hyx : y < x
          · rw [if_neg hxy, if_pos hyx] at hab; exact absurd hab (by simp)
          · have hxy' : x = y := le_antisymm (not_lt.mp hyx) (not_lt.mp hxy)
            rw [if_neg hxy, if_neg hyx] at hab
            by_cases hyz : y < z
            · rw [if_pos (hxy' ▸ hyz)]
            · by_cases hzy : z < y
              · rw [if_neg hyz, if_pos hzy] at hbc; exact absurd hbc (by simp)
              · have hyz' : y = z := le_antisymm (not_lt.mp hzy) (not_lt.mp hyz)
                rw [if_neg hyz, if_neg hzy] at hbc
                subst hxy'
                subst hyz'
                rw [if_neg (lt_irrefl x), if_neg (lt_irrefl x)]
                exact ih bs cs hab hbc

instance : IsTotal (String × String) (fun a b => pyStrLe a.2 b.2 = true) :=
  ⟨fun a b => charListLe_total a.2.toList b.2.toList⟩

instance : IsTrans (String × String) (fun a b => pyStrLe a.2 b.2 = true) :=
  ⟨fun _ _ _ hab hbc => charListLe_trans _ _ _ hab hbc⟩

/-- The trace of processed `(filepath, date)` pairs is a prefix of the
worked queue. -/
theorem seedFilesGo_trace_take (fail : Nat → Bool) (resp : Nat → String)
    (fsys : String → List (List Char)) (min_rating : Int) :
    ∀ (l : List (String × String)) (k j : Nat) (st : Store),
      ∃ m, (seedFilesGo fail resp fsys min_rating k j st l).2 = l.take m := by
  intro l
  induction l with
  | nil => intro k j st; exact ⟨0, rfl⟩
  | cons x rest ih =>
    intro k j st
    obtain ⟨fp, d⟩ := x
    rcases hsd : seed_database fail k st (fsys fp) d min_rating with ⟨st', k', ok⟩
    cases ok
    · simp only [seedFilesGo, hsd]
      by_cases hresp : pyLower (resp j) = "y"
      · rw [if_pos hresp]
        obtain ⟨m, hm⟩ := ih k' (j + 1) st'
        exact ⟨m + 1, by simp [hm]⟩
      · rw [if_neg hresp]
        exact ⟨1, rfl⟩
    · simp only [seedFilesGo, hsd]
      obtain ⟨m, hm⟩ := ih k' j st'
      exact ⟨m + 1, by simp [hm]⟩

/-- The trace on a nonempty queue always starts with the queue's head. -/
theorem seedFilesGo_trace_cons (fail : Nat → Bool) (resp : Nat → String)
    (fsys : String → List (List Char)) (min_rating : Int)
    (k j : Nat) (st : Store) (x : String × String)
    (l : List (String × String)) :
    ∃ t, (seedFilesGo fail resp fsys min_rating k j st (x :: l)).2 = x :: t := by
  obtain ⟨fp, d⟩ := x
  rcases hsd : seed_database fail k st (fsys fp) d min_rating with ⟨st', k', ok⟩
  cases ok
  · simp only [seedFilesGo, hsd]
    by_cases hresp : pyLower (resp j) = "y"
    · rw [if_pos hresp]; exact ⟨_, rfl⟩
    · rw [if_neg hresp]; exact ⟨[], rfl⟩
  · simp only [seedFilesGo, hsd]; exact ⟨_, rfl⟩

/-! ### Claim theorems: orchestrator -/

/-- C2: the orchestrator's processing trace is always sorted ascending by
date (it works on the date-sorted queue and processes a prefix of it), and
on the concrete unsorted input `[fileB 2025-02-01, fileA 2025-01-01]` it
processes `fileA` before `fileB`. -/
theorem orchestrator_date_order :
    (∀ (fail : Nat → Bool) (resp : Nat → String)
        (fsys : String → List (List Char))
        (file_list : List (String × String)) (min_rating : Int) (st : Store),
      List.Sorted (fun a b => pyStrLe a.2 b.2 = true)
        (seed_multiple_files fail resp fsys file_list min_rating st).2)
    ∧ (seed_multiple_files noFail (fun _ => "") (fun _ => [])
        [("fileB", "2025-02-01"), ("fileA", "2025-01-01")] 2500 emptyStore).2
      = [("fileA", "2025-01-01"), ("fileB", "2025-02-01")] := by
  constructor
  · intro fail resp fsys fl minR st
    obtain ⟨m, hm⟩ := seedFilesGo_trace_take fail resp fsys minR
      (List.insertionSort (fun a b => pyStrLe a.2 b.2 = true) fl) 0 0 st
    have heq : (seed_multiple_files fail resp fsys fl minR st).2
        = (List.insertionSort (fun a b => pyStrLe a.2 b.2 = true) fl).take m := hm
    rw [heq]
    exact List.Pairwise.sublist (List.take_sublist _ _)
      (List.sorted_insertionSort _ fl)
  · decide

/-- C9: when seeding one source fails, the orchestrator consults the
continuation decision: a `y` answer (after lowering) continues with the
remaining queue — the next queued source being processed next — and any
other answer stops, processing none of the remaining queue. -/
theorem continuation_policy (fail : Nat → Bool) (resp : Nat → String)
    (fsys : String → List (List Char)) (min_rating : Int)
    (k j : Nat) (st st' : Store) (k' : Nat) (fp d : String)
    (rest : List (String × String))
    (hseed : seed_database fail k st (fsys fp) d min_rating
      = (st', k', false)) :
    (pyLower (resp j) = "y" →
      seedFilesGo fail resp fsys min_rating k j st ((fp, d) :: rest)
        = ((seedFilesGo fail resp fsys min_rating k' (j + 1) st' rest).1,
           (fp, d) :: (seedFilesGo fail resp fsys min_rating k' (j + 1) st' rest).2))
    ∧ (pyLower (resp j) ≠ "y" →
      seedFilesGo fail resp fsys min_rating k j st ((fp, d) :: rest)
        = (st', [(fp, d)]))
    ∧ (pyLower (resp j) = "y" → ∀ nxt rest', rest = nxt :: rest' →
      ∃ t, (seedFilesGo fail resp fsys min_rating k j st ((fp, d) :: rest)).2
        = (fp, d) :: nxt :: t) := by
  refine ⟨?_, ?_, ?_⟩
  · intro hy
    simp only [seedFilesGo, hseed]
    rw [if_pos hy]
  · intro hy
    simp only [seedFilesGo, hseed]
    rw [if_neg hy]
  · intro hy nxt rest' hrest
    subst hrest
    have hcont : seedFilesGo fail resp fsys min_rating k j st
        ((fp, d) :: nxt :: rest')
        = ((seedFilesGo fail resp fsys min_rating k' (j + 1) st'
              (nxt :: rest')).1,
           (fp, d) :: (seedFilesGo fail resp fsys min_rating k' (j + 1) st'
              (nxt :: rest')).2) := by
      simp only [seedFilesGo, hseed]
      rw [if_pos hy]
    rw [hcont]
    obtain ⟨t, ht⟩ := seedFilesGo_trace_cons fail resp fsys min_rating
      k' (j + 1) st' nxt rest'
    exact ⟨t, by simp [ht]⟩

set_option maxRecDepth 400000 in
/-- Witness for C9: a failing first source with answer `n` stops the run
with only that source attempted. -/
theorem continuation_policy_witness :
    seedFilesGo (fun _ => true) (fun _ => "n")
      (fun _ => [['h'], mkLine "123" "Carlsen, Magnus" "NOR" "M" "2839" "1990"])
      2500 0 0 emptyStore
      [("f1", "2024-10-01"), ("f2", "2024-11-01")]
      = (emptyStore, [("f1", "2024-10-01")]) :=
  (continuation_policy (fun _ => true) (fun _ => "n")
    (fun _ => [['h'], mkLine "123" "Carlsen, Magnus" "NOR" "M" "2839" "1990"])
    2500 0 0 emptyStore emptyStore 0 "f1" "2024-10-01"
    [("f2", "2024-11-01")] (by decide)).2.1 (by decide)

/-! ### Lemmas about chunking and the two-pass writer -/

/-- Concatenating the slices of `range(0, L, 100)` recovers the list. -/
theorem chunks_flatten_aux {α : Type} :
    ∀ (m : Nat) (l : List α), l.length ≤ 100 * m →
      ((List.range m).map (fun k => (l.drop (100 * k)).take 100)).flatten = l := by
  intro m
  induction m with
  | zero =>
    intro l h
    simp only [Nat.mul_zero, Nat.le_zero] at h
    simp [List.eq_nil_of_length_eq_zero h]
  | succ m ih =>
    intro l h
    rw [List.range_succ_eq_map]
    simp only [List.map_cons, List.map_map, List.flatten_cons, Nat.mul_zero,
      List.drop_zero]
    have hfun : ((fun k => (l.drop (100 * k)).take 100) ∘ Nat.succ)
        = fun k => ((l.drop 100).drop (100 * k)).take 100 := by
      funext k
      simp only [Function.comp_apply, List.drop_drop]
      rw [show 100 * Nat.succ k = 100 + 100 * k from by omega]
    rw [hfun, ih (l.drop 100) (by simp only [List.length_drop]; omega)]
    exact List.take_append_drop 100 l

/-- The chunks of a list concatenate back to the list. -/
theorem chunks100_flatten {α : Type} (l : List α) : (chunks100 l).flatten = l := by
  have h1 : 100 * ((l.length + 99) / 100) + (l.length + 99) % 100
      = l.length + 99 := Nat.div_add_mod _ _
  have h2 : (l.length + 99) % 100 < 100 := Nat.mod_lt _ (by omega)
  exact chunks_flatten_aux _ l (by omega)

/-- Every chunk is nonempty and has at most 100 elements. -/
theorem chunks100_mem {α : Type} {l c : List α} (h : c ∈ chunks100 l) :
    c ≠ [] ∧ c.length ≤ 100 := by
  unfold chunks100 at h
  obtain ⟨k, hk, rfl⟩ := List.mem_map.mp h
  rw [List.mem_range] at hk
  have hdiv : ((l.length + 99) / 100) * 100 ≤ l.length + 99 :=
    Nat.div_mul_le_self _ _
  have hlen : ((l.drop (100 * k)).take 100).length
      = min 100 (l.length - 100 * k) := by
    simp [List.length_take, List.length_drop]
  constructor
  · intro hnil
    rw [hnil] at hlen
    simp only [List.length_nil] at hlen
    omega
  · omega

/-- Every chunk except possibly the last has exactly 100 elements. -/
theorem chunks100_dropLast_mem {α : Type} {l c : List α}
    (h : c ∈ (chunks100 l).dropLast) : c.length = 100 := by
  unfold chunks100 at h
  rcases hm : (l.length + 99) / 100 with _ | m
  · rw [hm] at h; simp at h
  · rw [hm, List.range_succ, List.map_append] at h
    simp only [List.map_cons, List.map_nil] at h
    rw [List.dropLast_concat] at h
    obtain ⟨k, hk, rfl⟩ := List.mem_map.mp h
    rw [List.mem_range] at hk
    have hdiv : ((l.length + 99) / 100) * 100 ≤ l.length + 99 :=
      Nat.div_mul_le_self _ _
    have h1 : 100 * ((l.length + 99) / 100) + (l.length + 99) % 100
        = l.length + 99 := Nat.div_add_mod _ _
    have h2 : (l.length + 99) % 100 < 100 := Nat.mod_lt _ (by omega)
    simp only [List.length_take, List.length_drop]
    omega

/-- When no chunk write fails, a pass folds every chunk into the store and
reports success, consuming one oracle index per chunk. -/
theorem runChunks_success {σ β : Type} (w : σ → List β → σ) (fail : Nat → Bool) :
    ∀ (cs : List (List β)) (k : Nat) (s : σ),
      (∀ i, i < cs.length → fail (k + i) = false) →
      runChunks w fail k s cs = (cs.foldl w s, k + cs.length, true) := by
  intro cs
  induction cs with
  | nil => intro k s _; simp [runChunks]
  | cons c cs ih =>
    intro k s h
    have h0 : fail k = false := by simpa using h 0 (by simp)
    have hrest : ∀ i, i < cs.length → fail (k + 1 + i) = false := by
      intro i hi
      have := h (i + 1) (by simp only [List.length_cons]; omega)
      rwa [show k + (i + 1) = k + 1 + i from by omega] at this
    simp only [runChunks, h0, Bool.false_eq_true, if_false]
    rw [ih (k + 1) (w s c) hrest]
    rw [show k + 1 + cs.length = k + (c :: cs).length from by
      simp only [List.length_cons]; omega]
    rfl

/-- A chunk write failing at position `j` aborts the pass: exactly the
first `j` chunks are written, the error is reported, nothing is rolled
back. -/
theorem runChunks_abort {σ β : Type} (w : σ → List β → σ) (fail : Nat → Bool) :
    ∀ (cs : List (List β)) (j k : Nat) (s : σ),
      j < cs.length →
      (∀ i, i < j → fail (k + i) = false) →
      fail (k + j) = true →
      runChunks w fail k s cs = ((cs.take j).foldl w s, k + j, false) := by
  intro cs
  induction cs with
  | nil => intro j k s hj; simp at hj
  | cons c cs ih =>
    intro j k s hj hpre hfail
    cases j with
    | zero =>
      have h0 : fail k = true := by simpa using hfail
      simp [runChunks, h0]
    | succ j' =>
      have h0 : fail k = false := by simpa using hpre 0 (by omega)
      simp only [runChunks, h0, Bool.false_eq_true, if_false]
      rw [ih j' (k + 1) (w s c)
        (by simp only [List.length_cons] at hj; omega)
        (fun i hi => by
          have := hpre (i + 1) (by omega)
          rwa [show k + (i + 1) = k + 1 + i from by omega] at this)
        (by rwa [show k + 1 + j' = k + (j' + 1) from by omega])]
      rw [show k + 1 + j' = k + (j' + 1) from by omega]
      rfl

/-- Whatever the failure oracle does, the store a pass leaves behind is
the fold of some prefix of the chunks. -/
theorem runChunks_exists_take {σ β : Type} (w : σ → List β → σ)
    (fail : Nat → Bool) :
    ∀ (cs : List (List β)) (k : Nat) (s : σ),
      ∃ n, (runChunks w fail k s cs).1 = ((cs.take n).foldl w s) := by
  intro cs
  induction cs with
  | nil => intro k s; exact ⟨0, rfl⟩
  | cons c cs ih =>
    intro k s
    by_cases h0 : fail k = true
    · exact ⟨0, by simp [runChunks, h0]⟩
    · have h0' : fail k = false := by simpa using h0
      obtain ⟨n, hn⟩ := ih (k + 1) (w s c)
      refine ⟨n + 1, ?_⟩
      simp only [runChunks, h0', Bool.false_eq_true, if_false]
      simpa using hn

/-- A pass that reports success wrote every chunk. -/
theorem runChunks_complete {σ β : Type} (w : σ → List β → σ)
    (fail : Nat → Bool) :
    ∀ (cs : List (List β)) (k : Nat) (s s' : σ) (k' : Nat),
      runChunks w fail k s cs = (s', k', true) → s' = cs.foldl w s := by
  intro cs
  induction cs with
  | nil =>
    intro k s s' k' h
    simpa [runChunks] using (congrArg Prod.fst h).symm
  | cons c cs ih =>
    intro k s s' k' h
    by_cases h0 : fail k = true
    · simp only [runChunks, h0, if_true] at h
      exact absurd (congrArg (fun t => t.2.2) h) (by simp)
    · have h0' : fail k = false := by simpa using h0
      simp only [runChunks, h0', Bool.false_eq_true, if_false] at h
      exact ih (k + 1) (w s c) s' k' h

/-- Folding a chunk list chunk-by-chunk equals folding the concatenation
row-by-row. -/
theorem foldl_foldl_join {σ β : Type} (w : σ → β → σ) :
    ∀ (cs : List (List β)) (s : σ),
      cs.foldl (fun a c => c.foldl w a) s = (cs.flatten).foldl w s := by
  intro cs
  induction cs with
  | nil => intro s; rfl
  | cons c cs ih => intro s; simp [List.foldl_append, ih]

/-- The chunked identity pass equals the row-by-row upsert of all rows. -/
theorem foldl_upsert_chunks (rows : List PlayerRow) (s : List PlayerRow) :
    (chunks100 rows).foldl upsertPlayers s = rows.foldl upsertPlayerRow s := by
  have h := foldl_foldl_join upsertPlayerRow (chunks100 rows) s
  rw [chunks100_flatten] at h
  exact h

/-- The chunked observation pass equals the row-by-row insert of all rows. -/
theorem foldl_insert_chunks (rows : List RankingRow) (s : List RankingRow) :
    (chunks100 rows).foldl insertRankings s = rows.foldl insertRankingRow s := by
  have h := foldl_foldl_join insertRankingRow (chunks100 rows) s
  rw [chunks100_flatten] at h
  exact h

/-- A chunked identity fold equals the row-by-row fold of the flattened
chunk list. -/
theorem foldl_upsertPlayers_eq (cs : List (List PlayerRow)) (s : List PlayerRow) :
    cs.foldl upsertPlayers s = cs.flatten.foldl upsertPlayerRow s :=
  foldl_foldl_join upsertPlayerRow cs s

/-- A chunked observation fold equals the row-by-row fold of the flattened
chunk list. -/
theorem foldl_insertRankings_eq (cs : List (List RankingRow)) (s : List RankingRow) :
    cs.foldl insertRankings s = cs.flatten.foldl insertRankingRow s :=
  foldl_foldl_join insertRankingRow cs s

/-- A single upsert leaves exactly the old identifiers plus the row's. -/
theorem mem_upsertPlayerRow_ids {s : List PlayerRow} {r : PlayerRow} {x : String} :
    x ∈ (upsertPlayerRow s r).map (fun p => p.fide_id)
      ↔ x ∈ s.map (fun p => p.fide_id) ∨ x = r.fide_id := by
  unfold upsertPlayerRow
  split
  · rename_i hany
    have hids : (s.map (fun q =>
        if q.fide_id == r.fide_id then
          { q with name := r.name, birth_year := r.birth_year }
        else q)).map (fun p => p.fide_id) = s.map (fun p => p.fide_id) := by
      rw [List.map_map]
      apply List.map_congr_left
      intro q _
      simp only [Function.comp_apply]
      split <;> rfl
    rw [hids]
    obtain ⟨q, hq, hqid⟩ := List.any_eq_true.mp hany
    rw [beq_iff_eq] at hqid
    constructor
    · exact Or.inl
    · rintro (h | rfl)
      · exact h
      · exact List.mem_map.mpr ⟨q, hq, hqid⟩
  · simp [List.map_append]

/-- The identifiers present after a row-by-row upsert fold are exactly the
old ones plus those of the upserted rows. -/
theorem mem_foldl_upsertPlayerRow_ids :
    ∀ (rows s : List PlayerRow) (x : String),
      x ∈ (rows.foldl upsertPlayerRow s).map (fun p => p.fide_id)
        ↔ x ∈ s.map (fun p => p.fide_id) ∨ x ∈ rows.map (fun p => p.fide_id) := by
  intro rows
  induction rows with
  | nil => intro s x; simp
  | cons r rs ih =>
    intro s x
    rw [List.foldl_cons, ih, mem_upsertPlayerRow_ids]
    simp only [List.map_cons, List.mem_cons]
    tauto

/-- A row present after an insert-if-absent fold was present before or is
one of the inserted rows. -/
theorem mem_foldl_insertRankingRow :
    ∀ (rows s : List RankingRow) (r : RankingRow),
      r ∈ rows.foldl insertRankingRow s → r ∈ s ∨ r ∈ rows := by
  intro rows
  induction rows with
  | nil => intro s r h; exact Or.inl h
  | cons row rs ih =>
    intro s r h
    rw [List.foldl_cons] at h
    rcases ih _ r h with hs | hrs
    · unfold insertRankingRow at hs
      split at hs
      · exact Or.inl hs
      · rcases List.mem_append.mp hs with h' | h'
        · exact Or.inl h'
        · exact Or.inr (by simp [List.mem_singleton.mp h'])
    · exact Or.inr (by simp [hrs])

/-! ### Claim theorem: referential integrity of the two passes -/

/-- C6: the identity pass runs to completion before any observation chunk
is written, so a store in which every observation's `fide_id` has a player
still satisfies that invariant after any run of `seed_database` — in
particular every observation row the run writes has its player written by
the same run's identity pass or already present. -/
theorem observations_reference_players (fail : Nat → Bool) (k : Nat)
    (st : Store) (fileLines : List (List Char)) (data_date : String)
    (min_rating : Int)
    (hinv : ∀ r ∈ st.rankings, ∃ p ∈ st.players, p.fide_id = r.fide_id) :
    ∀ r ∈ (seed_database fail k st fileLines data_date min_rating).1.rankings,
      ∃ p ∈ (seed_database fail k st fileLines data_date min_rating).1.players,
        p.fide_id = r.fide_id := by
  simp only [seed_database]
  by_cases hps : (parse_fide_text_file fileLines min_rating
      (get_existing_fide_ids st)).1 = []
  · rw [if_pos hps]
    exact hinv
  · rw [if_neg hps]
    rcases hpr : runChunks upsertPlayers fail k st.players
        (chunks100 (playerUpsertRows (parse_fide_text_file fileLines
          min_rating (get_existing_fide_ids st)).1)) with ⟨ps', kp, ok1⟩
    cases ok1
    · simp only [Bool.false_eq_true, if_false]
      intro r hr
      obtain ⟨p, hp, hpid⟩ := hinv r hr
      obtain ⟨n, hn⟩ := runChunks_exists_take upsertPlayers fail
        (chunks100 (playerUpsertRows (parse_fide_text_file fileLines
          min_rating (get_existing_fide_ids st)).1)) k st.players
      rw [hpr] at hn
      dsimp only at hn
      have hx : r.fide_id ∈ ps'.map (fun p => p.fide_id) := by
        rw [hn, foldl_upsertPlayers_eq]
        exact (mem_foldl_upsertPlayerRow_ids _ _ _).mpr
          (Or.inl (List.mem_map.mpr ⟨p, hp, hpid⟩))
      exact List.mem_map.mp hx
    · simp only [if_true]
      rcases hrr : runChunks insertRankings fail kp st.rankings
          (chunks100 (rankingRows data_date (data_date ++ "T00:00:00")
            (parse_fide_text_file fileLines min_rating
              (get_existing_fide_ids st)).1)) with ⟨rs', kr, ok2⟩
      intro r hr
      simp only at hr
      have hcomp : ps' = (chunks100 (playerUpsertRows
          (parse_fide_text_file fileLines min_rating
            (get_existing_fide_ids st)).1)).foldl upsertPlayers st.players :=
        runChunks_complete _ fail _ k _ _ _ hpr
      have hidsfull : ∀ x, (x ∈ st.players.map (fun p => p.fide_id) ∨
          x ∈ (parse_fide_text_file fileLines min_rating
            (get_existing_fide_ids st)).1.map (fun p => p.fide_id)) →
          x ∈ ps'.map (fun p => p.fide_id) := by
        intro x hx
        rw [hcomp, foldl_upsert_chunks]
        refine (mem_foldl_upsertPlayerRow_ids _ _ _).mpr ?_
        rcases hx with hx | hx
        · exact Or.inl hx
        · refine Or.inr ?_
          unfold playerUpsertRows
          rw [List.map_map]
          exact hx
      obtain ⟨n, hn⟩ := runChunks_exists_take insertRankings fail
        (chunks100 (rankingRows data_date (data_date ++ "T00:00:00")
          (parse_fide_text_file fileLines min_rating
            (get_existing_fide_ids st)).1)) kp st.rankings
      rw [hrr] at hn
      dsimp only at hn
      have hr' : r ∈ st.rankings ∨
          r ∈ rankingRows data_date (data_date ++ "T00:00:00")
            (parse_fide_text_file fileLines min_rating
              (get_existing_fide_ids st)).1 := by
        rw [hn, foldl_insertRankings_eq] at hr
        rcases mem_foldl_insertRankingRow _ _ _ hr with h | h
        · exact Or.inl h
        · refine Or.inr ?_
          obtain ⟨c, hc, hrc⟩ := List.mem_flatten.mp h
          have hcc := List.take_subset n _ hc
          have : r ∈ (chunks100 (rankingRows data_date
              (data_date ++ "T00:00:00")
              (parse_fide_text_file fileLines min_rating
                (get_existing_fide_ids st)).1)).flatten :=
            List.mem_flatten.mpr ⟨_, hcc, hrc⟩
          rwa [chunks100_flatten] at this
      rcases hr' with hold | hnew
      · obtain ⟨p, hp, hpid⟩ := hinv r hold
        exact List.mem_map.mp
          (hidsfull _ (Or.inl (List.mem_map.mpr ⟨p, hp, hpid⟩)))
      · obtain ⟨p0, hp0, hp0r⟩ := List.mem_map.mp hnew
        have hfid : p0.fide_id = r.fide_id := by rw [← hp0r]
        exact List.mem_map.mp
          (hidsfull _ (Or.inr (List.mem_map.mpr ⟨p0, hp0, hfid⟩)))

set_option maxRecDepth 400000 in
/-- Witness for C6: in a store with one observation backed by its player,
after seeding a one-record file, the old observation's player is still
present. -/
theorem observations_reference_players_witness :
    ∃ p ∈ (seed_database noFail 0
        ({ players := [{ fide_id := "9", name := "Old", birth_year := none }],
           rankings := [{ fide_id := "9", rank := none, rating := 2500,
                          federation := "CAN", scraped_date := "2024-09-01",
                          scraped_at := "t", data_source := "historical" }] })
        [['h'], mkLine "123" "Carlsen, Magnus" "NOR" "M" "2839" "1990"]
        "2024-10-01" 2500).1.players,
      p.fide_id = ({ fide_id := "9", rank := none, rating := 2500,
                     federation := "CAN", scraped_date := "2024-09-01",
                     scraped_at := "t",
                     data_source := "historical" } : RankingRow).fide_id :=
  observations_reference_players noFail 0
    ({ players := [{ fide_id := "9", name := "Old", birth_year := none }],
       rankings := [{ fide_id := "9", rank := none, rating := 2500,
                      federation := "CAN", scraped_date := "2024-09-01",
                      scraped_at := "t", data_source := "historical" }] })
    [['h'], mkLine "123" "Carlsen, Magnus" "NOR" "M" "2839" "1990"]
    "2024-10-01" 2500 (by decide)
    ({ fide_id := "9", rank := none, rating := 2500,
       federation := "CAN", scraped_date := "2024-09-01",
       scraped_at := "t", data_source := "historical" } : RankingRow)
    (by decide)

/-! ### Claim theorem: chunking and failure propagation -/

/-- C7: both passes cut the admitted rows into consecutive chunks of 100
(the last possibly smaller, all nonempty, concatenating back to the rows);
a chunk failure in the identity pass writes exactly the earlier chunks and
aborts with the error, the observation pass never starting; and a chunk
failure in the observation pass leaves the fully-written identity pass in
place (no rollback) with exactly the earlier observation chunks written,
the error propagating. -/
theorem chunking_and_abort_semantics :
    (∀ (α : Type) (l : List α),
      (chunks100 l).flatten = l
      ∧ (∀ c ∈ chunks100 l, c ≠ [] ∧ c.length ≤ 100)
      ∧ (∀ c ∈ (chunks100 l).dropLast, c.length = 100))
    ∧ (∀ (fail : Nat → Bool) (k : Nat) (st : Store)
        (fileLines : List (List Char)) (data_date : String)
        (min_rating : Int) (j : Nat) (ps : List RawRecord),
      (parse_fide_text_file fileLines min_rating
        (get_existing_fide_ids st)).1 = ps →
      ps ≠ [] →
      j < (chunks100 (playerUpsertRows ps)).length →
      (∀ i, i < j → fail (k + i) = false) →
      fail (k + j) = true →
      seed_database fail k st fileLines data_date min_rating
        = ({ st with players := (((chunks100 (playerUpsertRows ps)).take j).foldl
              upsertPlayers st.players) },
           k + j, false))
    ∧ (∀ (fail : Nat → Bool) (k : Nat) (st : Store)
        (fileLines : List (List Char)) (data_date : String)
        (min_rating : Int) (j : Nat) (ps : List RawRecord),
      (parse_fide_text_file fileLines min_rating
        (get_existing_fide_ids st)).1 = ps →
      ps ≠ [] →
      (∀ i, i < (chunks100 (playerUpsertRows ps)).length →
        fail (k + i) = false) →
      j < (chunks100 (rankingRows data_date (data_date ++ "T00:00:00") ps)).length →
      (∀ i, i < j →
        fail (k + (chunks100 (playerUpsertRows ps)).length + i) = false) →
      fail (k + (chunks100 (playerUpsertRows ps)).length + j) = true →
      seed_database fail k st fileLines data_date min_rating
        = ({ players := ((chunks100 (playerUpsertRows ps)).foldl
               upsertPlayers st.players),
             rankings := (((chunks100 (rankingRows data_date
               (data_date ++ "T00:00:00") ps)).take j).foldl
               insertRankings st.rankings) },
           k + (chunks100 (playerUpsertRows ps)).length + j, false)) := by
  refine ⟨?_, ?_, ?_⟩
  · intro α l
    exact ⟨chunks100_flatten l, fun c hc => chunks100_mem hc,
      fun c hc => chunks100_dropLast_mem hc⟩
  · intro fail k st fileLines data_date min_rating j ps hps hne hj hpre hfail
    simp only [seed_database]
    rw [hps, if_neg hne]
    rw [runChunks_abort upsertPlayers fail (chunks100 (playerUpsertRows ps))
      j k st.players hj hpre hfail]
    simp
  · intro fail k st fileLines data_date min_rating j ps hps hne hidok hj hpre hfail
    simp only [seed_database]
    rw [hps, if_neg hne]
    rw [runChunks_success upsertPlayers fail (chunks100 (playerUpsertRows ps))
      k st.players hidok]
    simp only [if_true]
    rw [runChunks_abort insertRankings fail
      (chunks100 (rankingRows data_date (data_date ++ "T00:00:00") ps))
      j (k + (chunks100 (playerUpsertRows ps)).length) st.rankings hj hpre hfail]

set_option maxRecDepth 1000000 in
/-- Witness for C7: with the oracle failing from the second chunk write
on, a one-record file completes its identity chunk, then aborts at the
first observation chunk, leaving the player written and no observation. -/
theorem chunking_and_abort_semantics_witness :
    seed_database (fun n => decide (1 ≤ n)) 0 emptyStore
      [['h'], mkLine "123" "Carlsen, Magnus" "NOR" "M" "2839" "1990"]
      "2024-10-01" 2500
      = ({ players := [{ fide_id := "123", name := "Carlsen, Magnus",
                         birth_year := some 1990 }],
           rankings := [] }, 1, false) :=
  ((chunking_and_abort_semantics.2.2 (fun n => decide (1 ≤ n)) 0 emptyStore
    [['h'], mkLine "123" "Carlsen, Magnus" "NOR" "M" "2839" "1990"]
    "2024-10-01" 2500 0
    [{ fide_id := "123", name := "Carlsen, Magnus", federation := "NOR",
       rating := 2839, birth_year := some 1990, sex := "M", title := none,
       rank := none }]
    (by decide) (by decide)
    (by
      intro i hi
      have hlen : (chunks100 (playerUpsertRows
          [{ fide_id := "123", name := "Carlsen, Magnus", federation := "NOR",
             rating := 2839, birth_year := some 1990, sex := "M",
             title := none, rank := none }])).length = 1 := by decide
      rw [hlen] at hi
      have h0 : i = 0 := by omega
      subst h0
      decide)
    (by decide)
    (by intro i hi; omega)
    (by decide)).trans (by decide))

/-! ### Lemmas towards idempotence of a repeated run -/

/-- A line invalid for one snapshot is invalid for every snapshot: the
validity checks never consult the existing identities. -/
theorem parseLine_invalid_mono {min_rating : Int} {E E' : List String}
    {l : List Char} (h : parseLine min_rating E l = .invalid) :
    parseLine min_rating E' l = .invalid := by
  by_cases h1 : l.length < 123
  · exact parseLine_short h1
  · by_cases h2 : lineId l = "" ∨ pyStrip (slice l 113 117) = [] ∨
        String.mk (pyStrip (slice l 15 76)) = ""
    · simp only [parseLine] at h ⊢
      rw [if_neg h1, if_pos h2]
    · push_neg at h2
      obtain ⟨hid, hrs, hname⟩ := h2
      cases hint : pyInt? (pyStrip (slice l 113 117)) with
      | none =>
        simp only [parseLine] at h ⊢
        rw [if_neg h1, if_neg (by simp [hid, hrs, hname]), hint]
      | some r =>
        exfalso
        rw [parseLine_valid min_rating E l r h1 hid hname hrs hint] at h
        split at h <;> simp at h

/-- A record produced under a snapshot is produced unchanged under any
larger snapshot. -/
theorem parseLine_record_mono {min_rating : Int} {E E' : List String}
    {l : List Char} {p : RawRecord} (hsub : ∀ x ∈ E, x ∈ E')
    (h : parseLine min_rating E l = .record p) :
    parseLine min_rating E' l = .record p := by
  by_cases h1 : l.length < 123
  · rw [parseLine_short h1] at h; exact absurd h (by simp)
  · by_cases h2 : lineId l = "" ∨ pyStrip (slice l 113 117) = [] ∨
        String.mk (pyStrip (slice l 15 76)) = ""
    · simp only [parseLine] at h
      rw [if_neg h1, if_pos h2] at h
      exact absurd h (by simp)
    · push_neg at h2
      obtain ⟨hid, hrs, hname⟩ := h2
      cases hint : pyInt? (pyStrip (slice l 113 117)) with
      | none =>
        simp only [parseLine] at h
        rw [if_neg h1, if_neg (by simp [hid, hrs, hname]), hint] at h
        exact absurd h (by simp)
      | some r =>
        rw [parseLine_valid min_rating E l r h1 hid hname hrs hint] at h
        rw [parseLine_valid min_rating E' l r h1 hid hname hrs hint]
        split at h
        · exact absurd h (by simp)
        · rename_i hc
          rw [if_neg (fun hc' => hc ⟨hc'.1, fun hm => hc'.2 (hsub _ hm)⟩)]
          exact h

/-- A line dropped by the admission filter stays dropped under any
snapshot that still lacks its identifier. -/
theorem parseLine_low_mono {min_rating : Int} {E E' : List String}
    {l : List Char} (h : parseLine min_rating E l = .lowRating)
    (hnot : lineId l ∉ E') : parseLine min_rating E' l = .lowRating := by
  by_cases h1 : l.length < 123
  · rw [parseLine_short h1] at h; exact absurd h (by simp)
  · by_cases h2 : lineId l = "" ∨ pyStrip (slice l 113 117) = [] ∨
        String.mk (pyStrip (slice l 15 76)) = ""
    · simp only [parseLine] at h
      rw [if_neg h1, if_pos h2] at h
      exact absurd h (by simp)
    · push_neg at h2
      obtain ⟨hid, hrs, hname⟩ := h2
      cases hint : pyInt? (pyStrip (slice l 113 117)) with
      | none =>
        simp only [parseLine] at h
        rw [if_neg h1, if_neg (by simp [hid, hrs, hname]), hint] at h
        exact absurd h (by simp)
      | some r =>
        rw [parseLine_valid min_rating E l r h1 hid hname hrs hint] at h
        rw [parseLine_valid min_rating E' l r h1 hid hname hrs hint]
        split at h
        · rename_i hc
          rw [if_pos ⟨hc.1, hnot⟩]
        · exact absurd h (by simp)

/-- The filter branch taken by a dropped line shows its identifier absent
from the snapshot consulted. -/
theorem parseLine_low_not_mem {min_rating : Int} {E : List String}
    {l : List Char} (h : parseLine min_rating E l = .lowRating) :
    lineId l ∉ E := by
  simp only [parseLine] at h
  split at h
  · exact absurd h (by simp)
  · split at h
    · exact absurd h (by simp)
    · split at h
      · exact absurd h (by simp)
      · split at h
        · rename_i hc
          exact hc.2
        · exact absurd h (by simp)

/-- A produced record's identifier is its line's identifier field. -/
theorem parseLine_record_fide {min_rating : Int} {E : List String}
    {l : List Char} {p : RawRecord}
    (h : parseLine min_rating E l = .record p) : p.fide_id = lineId l := by
  simp only [parseLine] at h
  split at h
  · exact absurd h (by simp)
  · split at h
    · exact absurd h (by simp)
    · split at h
      · exact absurd h (by simp)
      · split at h
        · exact absurd h (by simp)
        · cases h
          rfl

/-- The parse fold is unchanged when the snapshot grows, provided no
grown identifier belongs to a line the smaller snapshot dropped. -/
theorem foldParse_congr {min_rating : Int} {E E' : List String}
    (hsub : ∀ x ∈ E, x ∈ E') :
    ∀ (ds : List (List Char)) (acc : List RawRecord × Nat × Nat),
      (∀ l ∈ ds, parseLine min_rating E l = .lowRating → lineId l ∉ E') →
      ds.foldl (parseStep min_rating E') acc
        = ds.foldl (parseStep min_rating E) acc := by
  intro ds
  induction ds with
  | nil => intro acc _; rfl
  | cons l ls ih =>
    intro acc h
    have hstep : parseStep min_rating E' acc l = parseStep min_rating E acc l := by
      unfold parseStep
      cases hE : parseLine min_rating E l with
      | invalid => rw [parseLine_invalid_mono hE]
      | lowRating => rw [parseLine_low_mono hE (h l (by simp) hE)]
      | record p => rw [parseLine_record_mono hsub hE]
    simp only [List.foldl_cons, hstep]
    exact ih _ (fun x hx hlow => h x (by simp [hx]) hlow)

/-- Every record the parse fold emits comes from one of its lines. -/
theorem foldParse_records_from_lines {min_rating : Int} {E : List String} :
    ∀ (ds : List (List Char)) (acc : List RawRecord × Nat × Nat)
      (p : RawRecord),
      p ∈ (ds.foldl (parseStep min_rating E) acc).1 →
      p ∈ acc.1 ∨ ∃ l ∈ ds, parseLine min_rating E l = .record p := by
  intro ds
  induction ds with
  | nil => intro acc p h; exact Or.inl h
  | cons l ls ih =>
    intro acc p h
    rw [List.foldl_cons] at h
    rcases ih _ p h with hacc | ⟨l', hl', hrec⟩
    · unfold parseStep at hacc
      cases hE : parseLine min_rating E l with
      | invalid => rw [hE] at hacc; exact Or.inl hacc
      | lowRating => rw [hE] at hacc; exact Or.inl hacc
      | record q =>
        rw [hE] at hacc
        rcases List.mem_append.mp hacc with h' | h'
        · exact Or.inl h'
        · rw [List.mem_singleton] at h'
          subst h'
          exact Or.inr ⟨l, by simp, hE⟩
    · exact Or.inr ⟨l', by simp [hl'], hrec⟩

/-- The emitted records' identifiers form a sublist of the accumulator's
identifiers followed by the lines' identifier fields. -/
theorem foldParse_ids_sublist {min_rating : Int} {E : List String} :
    ∀ (ds : List (List Char)) (acc : List RawRecord × Nat × Nat),
      List.Sublist
        ((ds.foldl (parseStep min_rating E) acc).1.map (fun p => p.fide_id))
        ((acc.1.map (fun p => p.fide_id)) ++ ds.map lineId) := by
  intro ds
  induction ds with
  | nil => intro acc; simp
  | cons l ls ih =>
    intro acc
    rw [List.foldl_cons]
    cases hE : parseLine min_rating E l with
    | invalid =>
      have hstep : (parseStep min_rating E acc l).1 = acc.1 := by
        unfold parseStep; rw [hE]
      refine (ih _).trans ?_
      rw [hstep, List.map_cons]
      exact List.Sublist.append_left (List.sublist_cons_self _ _) _
    | lowRating =>
      have hstep : (parseStep min_rating E acc l).1 = acc.1 := by
        unfold parseStep; rw [hE]
      refine (ih _).trans ?_
      rw [hstep, List.map_cons]
      exact List.Sublist.append_left (List.sublist_cons_self _ _) _
    | record p =>
      have hstep : (parseStep min_rating E acc l).1 = acc.1 ++ [p] := by
        unfold parseStep; rw [hE]
      refine (ih _).trans ?_
      rw [hstep, List.map_cons, List.map_append]
      simp only [List.map_cons, List.map_nil]
      rw [parseLine_record_fide hE, List.append_assoc, List.singleton_append]

/-- Rows whose identifier none of the upserted rows carries pass through
an upsert fold untouched. -/
theorem upsert_foldl_untouched :
    ∀ (rows s : List PlayerRow) (q : PlayerRow),
      q ∈ rows.foldl upsertPlayerRow s →
      q.fide_id ∉ rows.map (fun p => p.fide_id) → q ∈ s := by
  intro rows
  induction rows with
  | nil => intro s q h _; exact h
  | cons r rs ih =>
    intro s q h hq
    have hq' : q ∈ upsertPlayerRow s r :=
      ih _ q h (fun hm => hq (by
        rw [List.map_cons]
        exact List.mem_cons_of_mem _ hm))
    have hqr : q.fide_id ≠ r.fide_id := fun he => hq (by simp [he])
    unfold upsertPlayerRow at hq'
    split at hq'
    · obtain ⟨q0, hq0, hf⟩ := List.mem_map.mp hq'
      by_cases h0 : (q0.fide_id == r.fide_id) = true
      · rw [if_pos h0] at hf
        exfalso
        apply hqr
        rw [← hf]
        exact beq_iff_eq.mp h0
      · rw [if_neg h0] at hf
        rw [← hf]
        exact hq0
    · rcases List.mem_append.mp hq' with h' | h'
      · exact h'
      · rw [List.mem_singleton] at h'
        exact absurd (h' ▸ rfl) hqr

/-- A row found after a single upsert and carrying the upserted
identifier carries the upserted name and birth year. -/
theorem mem_upsertPlayerRow_val {s : List PlayerRow} {r q : PlayerRow}
    (hq : q ∈ upsertPlayerRow s r) (hid : q.fide_id = r.fide_id) :
    q.name = r.name ∧ q.birth_year = r.birth_year := by
  unfold upsertPlayerRow at hq
  split at hq
  · obtain ⟨q0, hq0, hf⟩ := List.mem_map.mp hq
    by_cases h0 : (q0.fide_id == r.fide_id) = true
    · rw [if_pos h0] at hf
      rw [← hf]
      exact ⟨rfl, rfl⟩
    · rw [if_neg h0] at hf
      rw [beq_iff_eq] at h0
      rw [← hf] at hid
      exact absurd hid h0
  · rename_i hany
    rcases List.mem_append.mp hq with h' | h'
    · exfalso
      exact hany (List.any_eq_true.mpr ⟨q, h', by simp [hid]⟩)
    · rw [List.mem_singleton] at h'
      rw [h']
      exact ⟨rfl, rfl⟩

/-- Upserting a row whose key is present and whose writable fields are
already stored is a no-op. -/
theorem upsertPlayerRow_no_change {s : List PlayerRow} {r : PlayerRow}
    (hex : r.fide_id ∈ s.map (fun p => p.fide_id))
    (hval : ∀ q ∈ s, q.fide_id = r.fide_id →
      q.name = r.name ∧ q.birth_year = r.birth_year) :
    upsertPlayerRow s r = s := by
  unfold upsertPlayerRow
  rw [if_pos ?_]
  · have heach : ∀ q ∈ s, (if (q.fide_id == r.fide_id) = true then
        { q with name := r.name, birth_year := r.birth_year } else q) = q := by
      intro q hq
      split
      · rename_i hbeq
        obtain ⟨hn, hb⟩ := hval q hq (beq_iff_eq.mp hbeq)
        cases q with
        | mk a b c =>
          simp only at hn hb
          simp [hn, hb]
      · rfl
    exact (List.map_congr_left heach).trans (List.map_id s)
  · obtain ⟨q, hq, hqid⟩ := List.mem_map.mp hex
    exact List.any_eq_true.mpr ⟨q, hq, by simp [hqid]⟩

/-- Upserting the same rows a second time changes nothing, provided the
rows carry pairwise distinct identifiers. -/
theorem foldl_upsertPlayerRow_idem :
    ∀ (rows s : List PlayerRow),
      (rows.map (fun p => p.fide_id)).Nodup →
      rows.foldl upsertPlayerRow (rows.foldl upsertPlayerRow s)
        = rows.foldl upsertPlayerRow s := by
  intro rows
  induction rows with
  | nil => intro s _; rfl
  | cons r rs ih =>
    intro s hnd
    rw [List.map_cons, List.nodup_cons] at hnd
    obtain ⟨hhead, htail⟩ := hnd
    have hex : r.fide_id ∈ (rs.foldl upsertPlayerRow
        (upsertPlayerRow s r)).map (fun p => p.fide_id) :=
      (mem_foldl_upsertPlayerRow_ids _ _ _).mpr
        (Or.inl ((mem_upsertPlayerRow_ids).mpr (Or.inr rfl)))
    have hval : ∀ q ∈ rs.foldl upsertPlayerRow (upsertPlayerRow s r),
        q.fide_id = r.fide_id →
        q.name = r.name ∧ q.birth_year = r.birth_year := by
      intro q hq hid
      have hq' : q ∈ upsertPlayerRow s r :=
        upsert_foldl_untouched rs _ q hq (by rw [hid]; exact hhead)
      exact mem_upsertPlayerRow_val hq' hid
    have hnoop : upsertPlayerRow
        (rs.foldl upsertPlayerRow (upsertPlayerRow s r)) r
        = rs.foldl upsertPlayerRow (upsertPlayerRow s r) :=
      upsertPlayerRow_no_change hex hval
    show rs.foldl upsertPlayerRow (upsertPlayerRow
        (rs.foldl upsertPlayerRow (upsertPlayerRow s r)) r)
      = rs.foldl upsertPlayerRow (upsertPlayerRow s r)
    rw [hnoop]
    exact ih (upsertPlayerRow s r) htail

/-- Insert-if-absent of rows whose keys are all present is a no-op. -/
theorem foldl_insertRankingRow_keys_present :
    ∀ (rows s : List RankingRow),
      (∀ row ∈ rows, rKey row ∈ s.map rKey) →
      rows.foldl insertRankingRow s = s := by
  intro rows
  induction rows with
  | nil => intro s _; rfl
  | cons row rs ih =>
    intro s h
    rw [List.foldl_cons, insertRankingRow_present (h row (by simp))]
    exact ih s (fun x hx => h x (by simp [hx]))

/-- Insert-if-absent batches preserve key uniqueness. -/
theorem insertRankings_keys_nodup :
    ∀ (rows s : List RankingRow),
      (s.map rKey).Nodup → ((insertRankings s rows).map rKey).Nodup := by
  intro rows
  induction rows with
  | nil => intro s h; simpa [insertRankings] using h
  | cons r rs ih =>
    intro s h
    have hstep : ((insertRankingRow s r).map rKey).Nodup := by
      by_cases hmem : rKey r ∈ s.map rKey
      · rw [insertRankingRow_present hmem]; exact h
      · rw [insertRankingRow_absent hmem]
        simp only [List.map_append, List.map_cons, List.map_nil]
        refine List.Nodup.append h (List.nodup_singleton _) ?_
        intro a ha hb
        rw [List.mem_singleton] at hb
        exact hmem (hb ▸ ha)
    rw [show insertRankings s (r :: rs)
          = insertRankings (insertRankingRow s r) rs from rfl]
    exact ih _ hstep

/-- The store a failure-free run leaves behind: all admitted records
upserted into `players` row by row, then inserted-if-absent into
`rankings` row by row. -/
theorem seed_database_noFail_store (k : Nat) (st : Store)
    (fileLines : List (List Char)) (data_date : String) (min_rating : Int)
    (hne : (parse_fide_text_file fileLines min_rating
      (get_existing_fide_ids st)).1 ≠ []) :
    (seed_database noFail k st fileLines data_date min_rating).1
      = { players := ((playerUpsertRows (parse_fide_text_file fileLines
            min_rating (get_existing_fide_ids st)).1).foldl upsertPlayerRow
            st.players),
          rankings := ((rankingRows data_date (data_date ++ "T00:00:00")
            (parse_fide_text_file fileLines min_rating
              (get_existing_fide_ids st)).1).foldl insertRankingRow
            st.rankings) } := by
  simp only [seed_database]
  rw [if_neg hne]
  rw [runChunks_success upsertPlayers noFail _ k st.players (fun i _ => rfl)]
  simp only [if_true]
  rw [runChunks_success insertRankings noFail _ _ st.rankings (fun i _ => rfl)]
  rw [foldl_upsert_chunks, foldl_insert_chunks]

set_option maxRecDepth 1000000 in
/-- C4 counterexample: a file holding two records with the same `fide_id`
`777` — "Alice" at rating 2600 and "Bob" at 2400 — seeded twice into the
empty store from the same source and date, leaves a different store after
the second run: the first run drops "Bob" (2400 below threshold, id
unknown), but the second run grandfathers id `777` and overwrites the
player's name and birth year with "Bob"'s. -/
theorem seed_rerun_not_idempotent_duplicate_ids :
    (seed_database noFail 0
      (seed_database noFail 0 emptyStore
        [['h'], mkLine "777" "Alice" "NOR" "F" "2600" "1980",
          mkLine "777" "Bob" "USA" "M" "2400" "1985"]
        "2024-10-01" 2500).1
      [['h'], mkLine "777" "Alice" "NOR" "F" "2600" "1980",
        mkLine "777" "Bob" "USA" "M" "2400" "1985"]
      "2024-10-01" 2500).1
    ≠ (seed_database noFail 0 emptyStore
      [['h'], mkLine "777" "Alice" "NOR" "F" "2600" "1980",
        mkLine "777" "Bob" "USA" "M" "2400" "1985"]
      "2024-10-01" 2500).1 := by decide

/-- C4 amended: no run ever duplicates a `(fide_id, scraped_date)`
observation key; and when no two record lines of the file share an
identifier field (true of genuine FIDE rating lists), re-running the same
source and date is the identity on the store: the same records are
admitted again, the player upserts rewrite the already-stored values, and
every observation insert hits its key and is a no-op. -/
theorem seed_rerun_idempotent :
    (∀ (fail : Nat → Bool) (k : Nat) (st : Store)
        (fileLines : List (List Char)) (data_date : String) (min_rating : Int),
      (st.rankings.map rKey).Nodup →
      (((seed_database fail k st fileLines data_date min_rating).1.rankings).map
        rKey).Nodup)
    ∧ (∀ (st : Store) (fileLines : List (List Char)) (data_date : String)
        (min_rating : Int),
      ((((fileLines.drop 1).filter (fun l => pyStrip l ≠ [])).map lineId).Nodup) →
      (seed_database noFail 0
        (seed_database noFail 0 st fileLines data_date min_rating).1
        fileLines data_date min_rating).1
      = (seed_database noFail 0 st fileLines data_date min_rating).1) := by
  constructor
  · intro fail k st fileLines data_date min_rating hnd
    simp only [seed_database]
    by_cases hps : (parse_fide_text_file fileLines min_rating
        (get_existing_fide_ids st)).1 = []
    · rw [if_pos hps]
      exact hnd
    · rw [if_neg hps]
      rcases hpr : runChunks upsertPlayers fail k st.players
          (chunks100 (playerUpsertRows (parse_fide_text_file fileLines
            min_rating (get_existing_fide_ids st)).1)) with ⟨ps', kp, ok1⟩
      cases ok1
      · simp only [Bool.false_eq_true, if_false]
        exact hnd
      · simp only [if_true]
        obtain ⟨n, hn⟩ := runChunks_exists_take insertRankings fail
          (chunks100 (rankingRows data_date (data_date ++ "T00:00:00")
            (parse_fide_text_file fileLines min_rating
              (get_existing_fide_ids st)).1)) kp st.rankings
        rw [hn, foldl_insertRankings_eq]
        exact insertRankings_keys_nodup _ _ hnd
  · intro st fileLines data_date min_rating hnodup
    by_cases hps : (parse_fide_text_file fileLines min_rating
        (get_existing_fide_ids st)).1 = []
    · have h1 := seed_database_no_records noFail 0 st fileLines data_date
        min_rating hps
      rw [h1]
      dsimp only
      rw [h1]
    · have hs1 := seed_database_noFail_store 0 st fileLines data_date
        min_rating hps
      rw [hs1]
      have hE1mem : ∀ x, x ∈ get_existing_fide_ids
          { players := ((playerUpsertRows (parse_fide_text_file fileLines
              min_rating (get_existing_fide_ids st)).1).foldl upsertPlayerRow
              st.players),
            rankings := ((rankingRows data_date (data_date ++ "T00:00:00")
              (parse_fide_text_file fileLines min_rating
                (get_existing_fide_ids st)).1).foldl insertRankingRow
              st.rankings) }
          ↔ (x ∈ get_existing_fide_ids st ∨
             x ∈ (parse_fide_text_file fileLines min_rating
               (get_existing_fide_ids st)).1.map (fun p => p.fide_id)) := by
        intro x
        unfold get_existing_fide_ids
        dsimp only
        rw [mem_foldl_upsertPlayerRow_ids]
        unfold playerUpsertRows
        rw [List.map_map]
        exact Iff.rfl
      have hparse : parse_fide_text_file fileLines min_rating
          (get_existing_fide_ids
            { players := ((playerUpsertRows (parse_fide_text_file fileLines
                min_rating (get_existing_fide_ids st)).1).foldl upsertPlayerRow
                st.players),
              rankings := ((rankingRows data_date (data_date ++ "T00:00:00")
                (parse_fide_text_file fileLines min_rating
                  (get_existing_fide_ids st)).1).foldl insertRankingRow
                st.rankings) })
          = parse_fide_text_file fileLines min_rating
              (get_existing_fide_ids st) := by
        simp only [parse_fide_text_file]
        apply foldParse_congr
        · intro x hx
          exact (hE1mem x).mpr (Or.inl hx)
        · intro l hl hlow hmem
          rcases (hE1mem _).mp hmem with h0 | hPmem
          · exact parseLine_low_not_mem hlow h0
          · obtain ⟨p, hp, hpid⟩ := List.mem_map.mp hPmem
            rcases foldParse_records_from_lines
                ((fileLines.drop 1).filter (fun l => pyStrip l ≠ []))
                ([], 0, 0) p hp with habs | ⟨l', hl', hrec⟩
            · simp at habs
            · have hle : lineId l' = lineId l := by
                rw [← parseLine_record_fide hrec, hpid]
              have hll : l' = l :=
                List.inj_on_of_nodup_map hnodup hl' hl hle
              rw [hll] at hrec
              rw [hlow] at hrec
              exact absurd hrec (by simp)
      have hne2 : (parse_fide_text_file fileLines min_rating
          (get_existing_fide_ids
            { players := ((playerUpsertRows (parse_fide_text_file fileLines
                min_rating (get_existing_fide_ids st)).1).foldl upsertPlayerRow
                st.players),
              rankings := ((rankingRows data_date (data_date ++ "T00:00:00")
                (parse_fide_text_file fileLines min_rating
                  (get_existing_fide_ids st)).1).foldl insertRankingRow
                st.rankings) })).1 ≠ [] := by
        rw [hparse]
        exact hps
      rw [seed_database_noFail_store 0 _ fileLines data_date min_rating hne2]
      have hP2 : (parse_fide_text_file fileLines min_rating
          (get_existing_fide_ids
            { players := ((playerUpsertRows (parse_fide_text_file fileLines
                min_rating (get_existing_fide_ids st)).1).foldl upsertPlayerRow
                st.players),
              rankings := ((rankingRows data_date (data_date ++ "T00:00:00")
                (parse_fide_text_file fileLines min_rating
                  (get_existing_fide_ids st)).1).foldl insertRankingRow
                st.rankings) })).1
          = (parse_fide_text_file fileLines min_rating
              (get_existing_fide_ids st)).1 := congrArg Prod.fst hparse
      rw [hP2]
      have hPidsnodup : (((parse_fide_text_file fileLines min_rating
          (get_existing_fide_ids st)).1).map (fun p => p.fide_id)).Nodup := by
        have hsub := @foldParse_ids_sublist min_rating
          (get_existing_fide_ids st)
          ((fileLines.drop 1).filter (fun l => pyStrip l ≠ [])) ([], 0, 0)
        simp only [List.map_nil, List.nil_append] at hsub
        exact List.Nodup.sublist hsub hnodup
      have hrows_nodup : (((playerUpsertRows (parse_fide_text_file fileLines
          min_rating (get_existing_fide_ids st)).1)).map
          (fun p => p.fide_id)).Nodup := by
        unfold playerUpsertRows
        rw [List.map_map]
        exact hPidsnodup
      have hkeys : ∀ row ∈ rankingRows data_date (data_date ++ "T00:00:00")
          (parse_fide_text_file fileLines min_rating
            (get_existing_fide_ids st)).1,
          rKey row ∈ ((rankingRows data_date (data_date ++ "T00:00:00")
            (parse_fide_text_file fileLines min_rating
              (get_existing_fide_ids st)).1).foldl insertRankingRow
            st.rankings).map rKey := by
        intro row hrow
        exact insertRankings_key_mem (Or.inr (List.mem_map.mpr ⟨row, hrow, rfl⟩))
      rw [foldl_upsertPlayerRow_idem _ _ hrows_nodup]
      rw [foldl_insertRankingRow_keys_present _ _ hkeys]

set_option maxRecDepth 400000 in
/-- Witness for C4 (amended): re-seeding a one-record file over the store
the first seeding left gives that store back unchanged. -/
theorem seed_rerun_idempotent_witness :
    (seed_database noFail 0
      (seed_database noFail 0 emptyStore
        [['h'], mkLine "123" "Carlsen, Magnus" "NOR" "M" "2839" "1990"]
        "2024-10-01" 2500).1
      [['h'], mkLine "123" "Carlsen, Magnus" "NOR" "M" "2839" "1990"]
      "2024-10-01" 2500).1
    = (seed_database noFail 0 emptyStore
      [['h'], mkLine "123" "Carlsen, Magnus" "NOR" "M" "2839" "1990"]
      "2024-10-01" 2500).1 :=
  seed_rerun_idempotent.2 emptyStore
    [['h'], mkLine "123" "Carlsen, Magnus" "NOR" "M" "2839" "1990"]
    "2024-10-01" 2500 (by decide)

end FideTracker
